import Mathlib

/-!
Verification of the core of the repository: the persistent memoization cache
(memocache.py: to_immutable, write_via_temp, Memoize) and the rate-limited
parallel scheduler (parallel_processor.py: process_api_requests, APIRequest,
StatusTracker).

Python dictionaries are modelled as association lists with Python dict
semantics: lookup returns the binding of a key, assignment replaces the value
in place if the key is present and appends a fresh binding otherwise,
dict.update folds assignment over the argument, del removes the binding.
-/

section PyDict

variable {K V : Type} [DecidableEq K]

/-- Python d.get(k) / `k in d` lookup on an association list. -/
def dictLookup : List (K × V) → K → Option V
  | [], _ => none
  | (k1, v) :: rest, k => if k1 = k then some v else dictLookup rest k

/-- Python `k in d.keys()`. -/
def dictContains (d : List (K × V)) (k : K) : Bool :=
  (dictLookup d k).isSome

/-- Python `d[k] = v`: replace in place if present, append otherwise. -/
def dictInsert : List (K × V) → K → V → List (K × V)
  | [], k, v => [(k, v)]
  | (k1, v1) :: rest, k, v =>
    if k1 = k then (k, v) :: rest else (k1, v1) :: dictInsert rest k v

/-- Python `d.update(other)`: assign every binding of other into d, in order. -/
def dictUpdate (d other : List (K × V)) : List (K × V) :=
  other.foldl (fun acc e => dictInsert acc e.1 e.2) d

/-- Python `del d[k]` (on a key known to be present): drop the binding. -/
def dictErase : List (K × V) → K → List (K × V)
  | [], _ => []
  | (k1, v1) :: rest, k => if k1 = k then rest else (k1, v1) :: dictErase rest k

/-- A real Python dict never holds two bindings of the same key. -/
def NodupKeys (d : List (K × V)) : Prop := (d.map Prod.fst).Nodup

theorem dictLookup_insert (d : List (K × V)) (k1 k : K) (v : V) :
    dictLookup (dictInsert d k1 v) k = if k1 = k then some v else dictLookup d k := by
  induction d with
  | nil => simp [dictInsert, dictLookup]
  | cons hd tl ih =>
    obtain ⟨k2, v2⟩ := hd
    by_cases h21 : k2 = k1
    · subst h21
      simp only [dictInsert, if_pos rfl, dictLookup]
      by_cases h1 : k2 = k
      · subst h1; simp
      · simp [h1]
    · simp only [dictInsert, if_neg h21, dictLookup]
      by_cases h2 : k2 = k
      · subst h2
        have : ¬ k1 = k2 := fun h => h21 h.symm
        simp [this]
      · simp [h2, ih]

theorem dictContains_insert (d : List (K × V)) (k1 k : K) (v : V) :
    dictContains (dictInsert d k1 v) k = (dictContains d k || decide (k1 = k)) := by
  unfold dictContains
  rw [dictLookup_insert]
  by_cases h : k1 = k <;> simp [h]

theorem dictContains_iff_mem_keys (d : List (K × V)) (k : K) :
    dictContains d k = true ↔ k ∈ d.map Prod.fst := by
  induction d with
  | nil => simp [dictContains, dictLookup]
  | cons hd tl ih =>
    obtain ⟨k1, v1⟩ := hd
    by_cases h : k1 = k
    · subst h; simp [dictContains, dictLookup]
    · simpa [dictContains, dictLookup, h, Ne.symm h] using ih

theorem dictLookup_eq_none_of_not_contains {d : List (K × V)} {k : K}
    (h : dictContains d k = false) : dictLookup d k = none := by
  unfold dictContains at h
  exact Option.not_isSome_iff_eq_none.mp (by simp [h])

theorem dictLookup_update_not_contains {o : List (K × V)} {k : K}
    (d : List (K × V)) (h : dictContains o k = false) :
    dictLookup (dictUpdate d o) k = dictLookup d k := by
  induction o generalizing d with
  | nil => rfl
  | cons hd tl ih =>
    obtain ⟨k1, v1⟩ := hd
    have h1 : ¬ k1 = k := by
      intro hk; subst hk
      simp [dictContains, dictLookup] at h
    have h2 : dictContains tl k = false := by
      simpa [dictContains, dictLookup, h1] using h
    show dictLookup (dictUpdate (dictInsert d k1 v1) tl) k = dictLookup d k
    rw [ih _ h2, dictLookup_insert, if_neg h1]

theorem dictNodupKeys_insert {d : List (K × V)} (k : K) (v : V)
    (h : NodupKeys d) : NodupKeys (dictInsert d k v) := by
  induction d with
  | nil => simp [dictInsert, NodupKeys]
  | cons hd tl ih =>
    obtain ⟨k1, v1⟩ := hd
    unfold NodupKeys at h
    simp only [List.map_cons, List.nodup_cons] at h
    by_cases h1 : k1 = k
    · subst h1
      simpa [dictInsert, NodupKeys] using h
    · have htl := ih h.2
      have hmem : k1 ∉ (dictInsert tl k v).map Prod.fst := by
        intro hm
        have := (dictContains_iff_mem_keys (dictInsert tl k v) k1).mpr hm
        rw [dictContains_insert] at this
        rcases Bool.or_eq_true_iff.mp this with hc | hc
        · exact h.1 ((dictContains_iff_mem_keys tl k1).mp hc)
        · exact h1 (of_decide_eq_true hc).symm
      show NodupKeys (dictInsert ((k1, v1) :: tl) k v)
      unfold dictInsert
      rw [if_neg h1]
      unfold NodupKeys
      rw [List.map_cons]
      exact List.nodup_cons.mpr ⟨hmem, htl⟩

theorem dictNodupKeys_update {d : List (K × V)} (o : List (K × V))
    (h : NodupKeys d) : NodupKeys (dictUpdate d o) := by
  induction o generalizing d with
  | nil => exact h
  | cons hd tl ih =>
    exact ih (dictNodupKeys_insert hd.1 hd.2 h)

theorem dictLookup_update_contains {o : List (K × V)} {k : K}
    (d : List (K × V)) (hn : NodupKeys o) (h : dictContains o k = true) :
    dictLookup (dictUpdate d o) k = dictLookup o k := by
  induction o generalizing d with
  | nil => simp [dictContains, dictLookup] at h
  | cons hd tl ih =>
    obtain ⟨k1, v1⟩ := hd
    unfold NodupKeys at hn
    simp only [List.map_cons, List.nodup_cons] at hn
    by_cases h1 : k1 = k
    · subst h1
      have htl : dictContains tl k1 = false := by
        cases hcc : dictContains tl k1
        · rfl
        · exact absurd ((dictContains_iff_mem_keys tl k1).mp hcc) hn.1
      show dictLookup (dictUpdate (dictInsert d k1 v1) tl) k1 = _
      rw [dictLookup_update_not_contains _ htl, dictLookup_insert, if_pos rfl,
        dictLookup, if_pos rfl]
    · have h2 : dictContains tl k = true := by
        simpa [dictContains, dictLookup, h1] using h
      show dictLookup (dictUpdate (dictInsert d k1 v1) tl) k = _
      rw [ih _ hn.2 h2, dictLookup, if_neg h1]

theorem dictContains_update (d o : List (K × V)) (k : K) :
    dictContains (dictUpdate d o) k = (dictContains d k || dictContains o k) := by
  induction o generalizing d with
  | nil => simp [dictUpdate, dictContains, dictLookup]
  | cons hd tl ih =>
    obtain ⟨k1, v1⟩ := hd
    show dictContains (dictUpdate (dictInsert d k1 v1) tl) k = _
    rw [ih]
    rw [dictContains_insert]
    by_cases h1 : k1 = k
    · subst h1
      simp [dictContains, dictLookup]
    · simp only [dictContains, dictLookup, if_neg h1]
      by_cases hd : (dictLookup d k).isSome <;>
        simp [hd, h1, Bool.or_comm, Bool.or_assoc]

theorem dictLookup_erase_ne {k1 k : K} (d : List (K × V)) (h : k1 ≠ k) :
    dictLookup (dictErase d k) k1 = dictLookup d k1 := by
  induction d with
  | nil => rfl
  | cons hd tl ih =>
    obtain ⟨k2, v2⟩ := hd
    by_cases h2 : k2 = k
    · subst h2
      have : ¬ k2 = k1 := fun hh => h (hh ▸ rfl)
      simp [dictErase, dictLookup, this]
    · by_cases h21 : k2 = k1
      · subst h21
        simp [dictErase, h2, dictLookup]
      · simp [dictErase, h2, dictLookup, h21, ih]

theorem dictLookup_erase_self {d : List (K × V)} {k : K} (hn : NodupKeys d) :
    dictLookup (dictErase d k) k = none := by
  induction d with
  | nil => rfl
  | cons hd tl ih =>
    obtain ⟨k1, v1⟩ := hd
    unfold NodupKeys at hn
    simp only [List.map_cons, List.nodup_cons] at hn
    by_cases h1 : k1 = k
    · subst h1
      have : dictContains tl k1 = false := by
        cases hcc : dictContains tl k1
        · rfl
        · exact absurd ((dictContains_iff_mem_keys tl k1).mp hcc) hn.1
      simpa [dictErase] using dictLookup_eq_none_of_not_contains this
    · simp [dictErase, h1, dictLookup, ih hn.2]

theorem dictErase_insert_fresh {d : List (K × V)} {k : K} (v : V)
    (h : dictContains d k = false) : dictErase (dictInsert d k v) k = d := by
  induction d with
  | nil => simp [dictInsert, dictErase]
  | cons hd tl ih =>
    obtain ⟨k1, v1⟩ := hd
    have h1 : ¬ k1 = k := by
      intro hk; subst hk
      simp [dictContains, dictLookup] at h
    have h2 : dictContains tl k = false := by
      simpa [dictContains, dictLookup, h1] using h
    simp [dictInsert, h1, dictErase, ih h2]

end PyDict

/-!
Embedding of memocache.py.

Memoize keeps an in-memory dict self.cache and a durable pickle file
self.cache_file; the file may not exist yet (FileNotFoundError on load is
treated as an empty load). The pickled payload is the whole cache dict, so
the durable state is modelled as Option of a dict: none means the cache file
does not exist. All lock handling (thread_lock, file_lock) only serialises
the operations modelled here as atomic steps, and the pandas projection
(_update_df) never feeds back into the cache, so neither is modelled.
-/

section MemoCache

variable {K V A : Type} [DecidableEq K]

/-- The mutable state of one Memoize instance: self.cache plus the contents of
self.cache_file (none when the file does not exist yet). -/
structure MemoState (K V : Type) where
  cache : List (K × V)
  disk : Option (List (K × V))

/-- Memoize._load_cache_from_disk: pickle.load the file if it exists and
self.cache.update(disk_cache); FileNotFoundError returns with no change. -/
def loadCacheFromDisk (s : MemoState K V) : MemoState K V :=
  match s.disk with
  | none => s
  | some d => { s with cache := dictUpdate s.cache d }

/-- Memoize._write_cache_to_disk: unless skip_load, first reload-merge the
durable file into self.cache, then pickle.dump self.cache over the file
(write_via_temp makes the replacement atomic; its failure behaviour is
verified separately on the file-system model below). -/
def writeCacheToDisk (skipLoad : Bool) (s : MemoState K V) : MemoState K V :=
  let s := if !skipLoad then loadCacheFromDisk s else s
  { s with disk := some s.cache }

/-- Memoize._sync_overwrite_result: store under the lock, then persist.
The Python method has no return statement, i.e. it returns None. -/
def syncOverwriteResult (key : K) (val : V) (s : MemoState K V) : MemoState K V :=
  writeCacheToDisk false { s with cache := dictInsert s.cache key val }

/-- Configuration bits of a Memoize instance that the synchronous call path
reads. diskWriteOnly abbreviates disk_write_only != 0 (the source keeps a
reference count and only ever tests its truthiness). hasAwaitable models the
test `isinstance(val, (tuple, list)) and any(inspect.isawaitable(x) ...)`
of _process_half_async_result, which is abstract at this level of modelling. -/
structure MemoConfig (V : Type) where
  diskWriteOnly : Bool
  processHalfAsync : Bool
  hasAwaitable : V → Bool

/-- Memoize._process_half_async_result. When the value is a tuple or list
containing awaitables the source returns the container with each awaitable
wrapped so that the cache entry is overwritten later, from the event loop:
synchronously the cache and the durable file are not touched. Otherwise it
stores and persists via _sync_overwrite_result and returns the value. -/
def processHalfAsyncResult (cfg : MemoConfig V) (key : K) (val : V)
    (s : MemoState K V) : MemoState K V × V :=
  if cfg.hasAwaitable val then
    (s, val)
  else
    (syncOverwriteResult key val s, val)

/-- Memoize._sync_call. Returns the new state, the returned Python value
(`none` stands for the Python constant None), and whether the wrapped
function was invoked. Note that on a miss with process_half_async unset the
source runs `val = self._sync_overwrite_result(key, val)` and
_sync_overwrite_result returns None, so the call returns None. -/
def syncCall (cfg : MemoConfig V) (f : A → V) (keyOf : A → K) (args : A)
    (s : MemoState K V) : MemoState K V × Option V × Bool :=
  let key := keyOf args
  let s := if !cfg.diskWriteOnly then loadCacheFromDisk s else s
  match dictLookup s.cache key with
  | none =>
    let v := f args
    if !cfg.processHalfAsync then
      (syncOverwriteResult key v s, none, true)
    else
      let sv := processHalfAsyncResult cfg key v s
      (sv.1, some sv.2, true)
  | some v => (s, some v, false)

/-- Memoize._uncache: under both locks, reload-merge from disk, `del` the
key, and persist with skip_load. The boolean is true when `del` raises
KeyError (key absent from the merged cache); in that case the merge has
happened in memory but nothing is written to disk. -/
def uncacheM (s : MemoState K V) (key : K) : MemoState K V × Bool :=
  let s := loadCacheFromDisk s
  match dictLookup s.cache key with
  | none => (s, true)
  | some _ =>
    let c := dictErase s.cache key
    (writeCacheToDisk true { cache := c, disk := s.disk }, false)

/-- N cooperating writers, each owning an in-memory cache, persisting one
after the other through Memoize._write_cache_to_disk (the file lock
serialises the reload-merge-write sequences; the durable file is threaded
from one persist to the next). -/
def persistSeq (writers : List (List (K × V))) (disk0 : Option (List (K × V))) :
    Option (List (K × V)) :=
  writers.foldl (fun d m => (writeCacheToDisk false ⟨m, d⟩).disk) disk0

end MemoCache

/-!
Embedding of write_via_temp on an explicit file-system model: a dict from
path names to byte strings. Creating, writing and renaming files never fail
in this model; the injected failure is the do_write callback raising mid
serialization, which is the failure mode the spec claims safety for.
-/

section AtomicWrite

/-- File contents. -/
abbrev Bytes := List Nat

/-- A directory: map from path to contents. -/
abbrev FS := List (String × Bytes)

/-- Outcome of the do_write callback: either it returns after writing the
full serialized payload, or it raises after writing some prefix. -/
inductive DoWrite (E : Type) where
  | ok (b : Bytes)
  | raise (e : E) (written : Bytes)

/-- os.rename(src, dst): move the contents; no-op if src does not exist
(never the case on the paths used below). -/
def fsRename (fs : FS) (src dst : String) : FS :=
  match dictLookup fs src with
  | none => fs
  | some b => dictInsert (dictErase fs src) dst b

/-- write_via_temp file_path do_write. tempPath is the fresh name produced by
tempfile.NamedTemporaryFile in the target directory. Returns the resulting
file system and the propagated exception, if any. On an exception from
do_write the temp file is closed, removed and the exception is re-raised.
On success the target (if it exists) is renamed to file_path + ".bak", the
temp file is renamed over the target, and the finally block deletes the
backup (restoring it only if the target vanished, which cannot happen here
since renames do not fail in this model). -/
def writeViaTemp {E : Type} (fs : FS) (filePath tempPath : String)
    (doWrite : DoWrite E) : FS × Option E :=
  match doWrite with
  | .raise e w => (dictErase (dictInsert fs tempPath w) tempPath, some e)
  | .ok b =>
    let fs := dictInsert fs tempPath b
    let backupPath := filePath ++ ".bak"
    let fs := if dictContains fs filePath then fsRename fs filePath backupPath else fs
    let fs := fsRename fs tempPath filePath
    let fs :=
      if dictContains fs backupPath then
        if !dictContains fs filePath then fsRename fs backupPath filePath
        else dictErase fs backupPath
      else fs
    (fs, none)

end AtomicWrite

/-!
Embedding of to_immutable and Memoize.key_of_args.

Python values reaching the canonicalizer are modelled by an inductive type:
abstract scalars (atoms), lists, tuples, dicts and frozendicts. Dict keys are
modelled as strings (keyword-argument names are strings and dict keys must
be hashable scalars for the cache key to be hashable at all). The frozendict
package class subclasses dict, and the equality used by the Python cache
dict on frozendicts is equality of mappings, insertion order irrelevant; the
embedding therefore keeps frozendict entries sorted by key, so that Lean
structural equality on the canonical form coincides with Python == on the
CacheKey (for genuine Python dicts the keys are unique).
-/

section Canonicalize

/-- A Python value: an abstract scalar, a list, a tuple, a dict or a
frozendict (the latter given by its entries). -/
inductive PyVal where
  | atom : String → PyVal
  | list : List PyVal → PyVal
  | tuple : List PyVal → PyVal
  | dict : List (String × PyVal) → PyVal
  | frozendict : List (String × PyVal) → PyVal

/-- Comparison of entries by key, the order in which the embedding keeps
frozendict entries. -/
def keyLe (a b : String × PyVal) : Prop := a.1 ≤ b.1

instance : DecidableRel keyLe := fun a b => by
  unfold keyLe; infer_instance

/-- Insert one entry into a key-sorted entry list. -/
def insertEntry (e : String × PyVal) : List (String × PyVal) → List (String × PyVal)
  | [] => [e]
  | f :: rest => if e.1 ≤ f.1 then e :: f :: rest else f :: insertEntry e rest

/-- Sort entries by key: the canonical order-insensitive representation of a
frozendict. -/
def sortByKey : List (String × PyVal) → List (String × PyVal)
  | [] => []
  | e :: rest => insertEntry e (sortByKey rest)

mutual

/-- to_immutable: lists and tuples become tuples of recursively converted
elements; dicts (and frozendicts, which are dict instances) become
frozendicts with the same keys and converted values; anything else is
returned unchanged. -/
def toImmutable : PyVal → PyVal
  | .atom a => .atom a
  | .list xs => .tuple (toImmutableList xs)
  | .tuple xs => .tuple (toImmutableList xs)
  | .dict es => .frozendict (sortByKey (toImmutableEntries es))
  | .frozendict es => .frozendict (sortByKey (toImmutableEntries es))

/-- Pointwise to_immutable over the elements of a list or tuple. -/
def toImmutableList : List PyVal → List PyVal
  | [] => []
  | x :: xs => toImmutable x :: toImmutableList xs

/-- Value-wise to_immutable over dict entries: `{k: to_immutable(v) ...}`. -/
def toImmutableEntries : List (String × PyVal) → List (String × PyVal)
  | [] => []
  | (k, v) :: es => (k, toImmutable v) :: toImmutableEntries es

end

/-- Memoize.key_of_args: `(to_immutable(args), to_immutable(kwargs))`, where
args is the positional-argument tuple and kwargs the keyword-argument dict. -/
def keyOfArgs (args : List PyVal) (kwargs : List (String × PyVal)) : PyVal × PyVal :=
  (toImmutable (.tuple args), toImmutable (.dict kwargs))

end Canonicalize

/-!
Embedding of parallel_processor.py.

process_api_requests is an asyncio driver loop. Between two awaits the loop
body runs atomically, and all of stage / refill / dispatch / exit-check run
before the only await (asyncio.sleep) of an iteration, so one loop iteration
is one atomic step. A dispatched call_api coroutine mutates shared state only
after its awaited request returns, again without intervening awaits, so one
task completion is another atomic step, interleaved arbitrarily between loop
iterations. An execution is therefore a sequence of loop steps (each carrying
the nonnegative wall-clock time elapsed since the previous capacity refill)
and completion steps (each naming which in-flight task finishes).

Floating point capacity arithmetic is modelled over the rationals; counters
are Python ints, modelled as integers. The two classification predicates act
on abstract exception payloads, modelled as naturals. The 1 ms sleep, the rate
limit cooldown pause and time_of_last_rate_limit_error only influence how
much wall-clock time passes between steps, which the arbitrary per-step
elapsed time already covers, so they are not modelled further; the tqdm
progress iterator feeds nothing back. finalizedSucceeded/finalizedFailed
record the terminal transitions of call_api for specification purposes:
tasks are appended there exactly when the source logs a task as completed or
as failed after all attempts.
-/

section Scheduler

/-- Behaviour of one deferred call: the outcome of its n-th invocation
(0-based). ok is a normal return; err carries the raised exception. -/
inductive Outcome where
  | ok
  | err (e : Nat)

/-- APIRequest: task id, the deferred call, attempts_left and the
accumulated result list of errors (self.result). Since a task whose call
returned normally is never re-invoked, the number of prior invocations of a
live task equals the length of its error list, which is what the spec field
is indexed by. -/
structure APIRequest where
  taskId : Nat
  spec : Nat → Outcome
  attemptsLeft : Int
  result : List Nat

/-- StatusTracker counters. -/
structure StatusTracker where
  numTasksStarted : Int := 0
  numTasksInProgress : Int := 0
  numTasksSucceeded : Int := 0
  numTasksFailed : Int := 0
  numRateLimitErrors : Int := 0
  numApiErrors : Int := 0
  numOtherErrors : Int := 0

/-- The arguments of process_api_requests that the loop reads. -/
structure SchedConfig where
  maxRequestsPerMinute : ℚ
  maxAttempts : Int
  isRateLimitException : Nat → Bool
  isApiException : Nat → Bool

/-- The state of one run of process_api_requests. -/
structure SchedState where
  queueOfRequestsToRetry : List APIRequest
  nextRequest : Option APIRequest
  inputRemaining : List (Nat → Outcome)
  iteratorNotFinished : Bool
  availableRequestCapacity : ℚ
  tracker : StatusTracker
  inFlight : List APIRequest
  nextTaskId : Nat
  halted : Bool
  finalizedSucceeded : List APIRequest
  finalizedFailed : List APIRequest

/-- Initial state: empty retry queue, no staged request, full capacity,
fresh trackers, iterator not finished. -/
def initState (cfg : SchedConfig) (input : List (Nat → Outcome)) : SchedState where
  queueOfRequestsToRetry := []
  nextRequest := none
  inputRemaining := input
  iteratorNotFinished := true
  availableRequestCapacity := cfg.maxRequestsPerMinute
  tracker := {}
  inFlight := []
  nextTaskId := 0
  halted := false
  finalizedSucceeded := []
  finalizedFailed := []

/-- Stage of the loop body guarded by `if next_request is None`: prefer the
retry queue; otherwise, while the iterator is not known to be exhausted,
pull a fresh request, wrap it with attempts_left = max_attempts and count it
as started and in progress, or record StopIteration. -/
def getNextRequest (cfg : SchedConfig) (s : SchedState) : SchedState :=
  match s.nextRequest with
  | some _ => s
  | none =>
    match s.queueOfRequestsToRetry with
    | r :: rest => { s with nextRequest := some r, queueOfRequestsToRetry := rest }
    | [] =>
      if s.iteratorNotFinished then
        match s.inputRemaining with
        | f :: rest =>
          { s with
            nextRequest := some ⟨s.nextTaskId, f, cfg.maxAttempts, []⟩
            nextTaskId := s.nextTaskId + 1
            inputRemaining := rest
            tracker := { s.tracker with
              numTasksStarted := s.tracker.numTasksStarted + 1
              numTasksInProgress := s.tracker.numTasksInProgress + 1 } }
        | [] => { s with iteratorNotFinished := false }
      else s

/-- Capacity refill: add rate * elapsed / 60, clamped at the maximum. -/
def updateCapacity (cfg : SchedConfig) (dt : ℚ) (s : SchedState) : SchedState :=
  let cap := min (s.availableRequestCapacity + cfg.maxRequestsPerMinute * dt / 60)
    cfg.maxRequestsPerMinute
  { s with availableRequestCapacity := cap }

/-- Dispatch: if a request is staged and at least one whole token is
available, consume one token, decrement attempts_left, launch call_api (the
request becomes in-flight) and clear the staged slot. -/
def dispatchIfCapacity (s : SchedState) : SchedState :=
  match s.nextRequest with
  | some r =>
    if 1 ≤ s.availableRequestCapacity then
      { s with
        availableRequestCapacity := s.availableRequestCapacity - 1
        inFlight := s.inFlight ++ [{ r with attemptsLeft := r.attemptsLeft - 1 }]
        nextRequest := none }
    else s
  | none => s

/-- One atomic iteration of the main loop: stage, refill, dispatch, then
break out of the loop when num_tasks_in_progress == 0. -/
def loopIter (cfg : SchedConfig) (dt : ℚ) (s : SchedState) : SchedState :=
  let s := getNextRequest cfg s
  let s := updateCapacity cfg dt s
  let s := dispatchIfCapacity s
  if s.tracker.numTasksInProgress = 0 then { s with halted := true } else s

/-- APIRequest.call_api for the i-th in-flight task, from the point its
awaited request_func returns or raises: classify a raised exception and bump
the matching error counter, append the error to self.result, then requeue
when attempts_left is nonzero and otherwise finalize as failed; on a normal
return finalize as succeeded. -/
def completeTask (cfg : SchedConfig) (i : Nat) (s : SchedState) : SchedState :=
  match s.inFlight[i]? with
  | none => s
  | some r =>
    let rest := s.inFlight.eraseIdx i
    match r.spec r.result.length with
    | .ok =>
      { s with
        inFlight := rest
        tracker := { s.tracker with
          numTasksInProgress := s.tracker.numTasksInProgress - 1
          numTasksSucceeded := s.tracker.numTasksSucceeded + 1 }
        finalizedSucceeded := s.finalizedSucceeded ++ [r] }
    | .err e =>
      let t := s.tracker
      let t :=
        if cfg.isRateLimitException e then
          { t with numRateLimitErrors := t.numRateLimitErrors + 1 }
        else if cfg.isApiException e then
          { t with numApiErrors := t.numApiErrors + 1 }
        else
          { t with numOtherErrors := t.numOtherErrors + 1 }
      let r2 : APIRequest := { r with result := r.result ++ [e] }
      if r2.attemptsLeft ≠ 0 then
        { s with
          inFlight := rest
          tracker := t
          queueOfRequestsToRetry := s.queueOfRequestsToRetry ++ [r2] }
      else
        { s with
          inFlight := rest
          tracker := { t with
            numTasksInProgress := t.numTasksInProgress - 1
            numTasksFailed := t.numTasksFailed + 1 }
          finalizedFailed := s.finalizedFailed ++ [r2] }

/-- One observable step of an execution: a loop iteration (with the elapsed
wall-clock time since the last refill) or the completion of an in-flight
task. -/
inductive SchedAction where
  | loop (dt : ℚ)
  | complete (i : Nat)

/-- Apply one step; after the loop has broken out, the run is over and
nothing further changes. -/
def schedStep (cfg : SchedConfig) (s : SchedState) (a : SchedAction) : SchedState :=
  if s.halted then s
  else
    match a with
    | .loop dt => loopIter cfg dt s
    | .complete i => completeTask cfg i s

/-- Run a whole schedule of steps. -/
def schedRun (cfg : SchedConfig) (acts : List SchedAction) (s : SchedState) :
    SchedState :=
  acts.foldl (schedStep cfg) s

end Scheduler

/-!
Invariants of the scheduler state machine, and concrete fixtures used to
instantiate the theorems below on closed inputs.
-/

section SchedulerInvariants

/-- Contribution of the staged slot to num_tasks_in_progress. -/
def optCountI (o : Option APIRequest) : Int := if o.isSome then 1 else 0

/-- Bookkeeping invariant of the driver loop: num_tasks_in_progress counts
exactly the staged, queued and in-flight tasks; every started task is staged,
queued, in flight, or finalized exactly once; succeeded and failed count the
terminal transitions; a recorded StopIteration means the input really is
exhausted; and once the loop has broken out, no task is in progress, the
input is exhausted and the retry queue is empty. -/
structure SchedInv (s : SchedState) : Prop where
  inProgressEq : s.tracker.numTasksInProgress =
    optCountI s.nextRequest + s.queueOfRequestsToRetry.length + s.inFlight.length
  startedEq : s.tracker.numTasksStarted =
    s.tracker.numTasksInProgress + s.tracker.numTasksSucceeded + s.tracker.numTasksFailed
  succeededEq : s.tracker.numTasksSucceeded = s.finalizedSucceeded.length
  failedEq : s.tracker.numTasksFailed = s.finalizedFailed.length
  iterDone : s.iteratorNotFinished = false → s.inputRemaining = []
  haltedDone : s.halted = true → s.tracker.numTasksInProgress = 0 ∧
    s.inputRemaining = [] ∧ s.queueOfRequestsToRetry = []

/-- A deferred call every invocation of which raises. -/
def alwaysFails (f : Nat → Outcome) : Prop := ∀ n, f n ≠ Outcome.ok

/-- Attempt accounting for a staged or queued always-failing task: each of
its invocations so far consumed one attempt. -/
def liveAccounted (k : Int) (r : APIRequest) : Prop :=
  alwaysFails r.spec → r.attemptsLeft = k - r.result.length

/-- Attempt accounting for an in-flight always-failing task: its current
invocation has already consumed its attempt at dispatch time. -/
def flyingAccounted (k : Int) (r : APIRequest) : Prop :=
  alwaysFails r.spec → r.attemptsLeft = k - r.result.length - 1

/-- Attempt accounting for a finalized-as-failed always-failing task: all k
attempts were consumed, one invocation each. -/
def failedAccounted (k : Int) (r : APIRequest) : Prop :=
  alwaysFails r.spec → (r.result.length : Int) = k ∧ r.attemptsLeft = 0

/-- Attempt accounting over the entire scheduler state. -/
structure AttemptsInv (cfg : SchedConfig) (s : SchedState) : Prop where
  staged : ∀ r, s.nextRequest = some r → liveAccounted cfg.maxAttempts r
  queued : ∀ r ∈ s.queueOfRequestsToRetry, liveAccounted cfg.maxAttempts r
  flying : ∀ r ∈ s.inFlight, flyingAccounted cfg.maxAttempts r
  failedDone : ∀ r ∈ s.finalizedFailed, failedAccounted cfg.maxAttempts r

/-- A run configuration with two attempts per task, classifying every
exception as a rate limit exception. -/
def schedCfgA : SchedConfig := ⟨60, 2, fun _ => true, fun _ => false⟩

/-- A run configuration with one attempt per task, classifying every
exception as unknown. -/
def schedCfgB : SchedConfig := ⟨60, 1, fun _ => false, fun _ => false⟩

/-- A deferred call that raises exception 0 on every invocation. -/
def failSpec : Nat → Outcome := fun _ => Outcome.err 0

/-- A deferred call that returns normally on every invocation. -/
def okSpec : Nat → Outcome := fun _ => Outcome.ok

/-- Schedule driving one always-failing task through two attempts. -/
def actsFail : List SchedAction :=
  [.loop 0, .complete 0, .loop 0, .complete 0]

/-- Schedule driving one succeeding task to completion and the loop to its
exit. -/
def actsOk : List SchedAction := [.loop 0, .complete 0, .loop 0]

end SchedulerInvariants


/-!
Preservation of the bookkeeping invariant by every step of the scheduler.
-/

theorem optCountI_nonneg (o : Option APIRequest) : 0 ≤ optCountI o := by
  cases o <;> simp [optCountI]

theorem schedInv_getNextRequest (cfg : SchedConfig) {s : SchedState} (h : SchedInv s) :
    SchedInv (getNextRequest cfg s) ∧
      ((getNextRequest cfg s).tracker.numTasksInProgress = 0 →
        (getNextRequest cfg s).inputRemaining = []) ∧
      (getNextRequest cfg s).halted = s.halted ∧
      (getNextRequest cfg s).availableRequestCapacity = s.availableRequestCapacity := by
  obtain ⟨h1, h2, h3, h4, h5, h6⟩ := h
  have hqn : (0:Int) ≤ s.queueOfRequestsToRetry.length := Int.ofNat_nonneg _
  have hfn : (0:Int) ≤ s.inFlight.length := Int.ofNat_nonneg _
  cases hnr : s.nextRequest with
  | some r =>
    rw [hnr] at h1
    simp only [getNextRequest, hnr]
    refine ⟨⟨?_, h2, h3, h4, h5, h6⟩, ?_, by trivial, by trivial⟩
    · rw [hnr]
      exact h1
    · intro h0
      simp [optCountI] at h1
      omega
  | none =>
    rw [hnr] at h1
    simp [optCountI] at h1
    cases hq : s.queueOfRequestsToRetry with
    | cons r rest =>
      rw [hq] at h1
      simp only [List.length_cons] at h1
      push_cast at h1
      simp only [getNextRequest, hnr, hq]
      refine ⟨⟨?_, h2, h3, h4, h5, ?_⟩, ?_, by trivial, by trivial⟩
      · simp [optCountI]
        omega
      · intro hh
        have hx := (h6 hh).2.2
        rw [hq] at hx
        cases hx
      · intro h0
        omega
    | nil =>
      rw [hq] at h1
      simp only [List.length_nil] at h1
      cases hit : s.iteratorNotFinished with
      | true =>
        cases hin : s.inputRemaining with
        | cons f rest =>
          simp only [getNextRequest, hnr, hq, hit, hin, if_pos]
          refine ⟨⟨?_, ?_, h3, h4, ?_, ?_⟩, ?_, by trivial, by trivial⟩
          · simp [optCountI]
            omega
          · dsimp only
            omega
          · intro hf
            simp at hf
          · intro hh
            have hx := (h6 hh).2.1
            rw [hin] at hx
            cases hx
          · intro h0
            omega
        | nil =>
          simp only [getNextRequest, hnr, hq, hit, hin, if_pos]
          refine ⟨⟨?_, h2, h3, h4, ?_, ?_⟩, ?_, by trivial, by trivial⟩
          · dsimp only
            simp [optCountI]
            omega
          · intro _
            rfl
          · intro hh
            exact ⟨(h6 hh).1, rfl, rfl⟩
          · intro _
            trivial
      | false =>
        have hred : getNextRequest cfg s = s := by
          unfold getNextRequest
          rw [hnr, hq, hit]
          simp
        rw [hred]
        refine ⟨⟨?_, h2, h3, h4, h5, h6⟩, ?_, rfl, rfl⟩
        · rw [hnr, hq]
          simp [optCountI]
          omega
        · intro _
          exact h5 hit

theorem schedInv_updateCapacity (cfg : SchedConfig) (dt : ℚ) {s : SchedState}
    (h : SchedInv s) : SchedInv (updateCapacity cfg dt s) := by
  obtain ⟨h1, h2, h3, h4, h5, h6⟩ := h
  exact ⟨h1, h2, h3, h4, h5, h6⟩

theorem schedInv_dispatchIfCapacity {s : SchedState} (h : SchedInv s) :
    SchedInv (dispatchIfCapacity s) ∧
      (dispatchIfCapacity s).tracker = s.tracker ∧
      (dispatchIfCapacity s).inputRemaining = s.inputRemaining ∧
      (dispatchIfCapacity s).queueOfRequestsToRetry = s.queueOfRequestsToRetry ∧
      (dispatchIfCapacity s).halted = s.halted := by
  obtain ⟨h1, h2, h3, h4, h5, h6⟩ := h
  cases hnr : s.nextRequest with
  | none =>
    have hred : dispatchIfCapacity s = s := by
      unfold dispatchIfCapacity
      rw [hnr]
    rw [hred]
    exact ⟨⟨h1, h2, h3, h4, h5, h6⟩, rfl, rfl, rfl, rfl⟩
  | some r =>
    by_cases hcap : 1 ≤ s.availableRequestCapacity
    · have hred : dispatchIfCapacity s =
          { s with
            availableRequestCapacity := s.availableRequestCapacity - 1
            inFlight := s.inFlight ++ [{ r with attemptsLeft := r.attemptsLeft - 1 }]
            nextRequest := none } := by
        unfold dispatchIfCapacity
        rw [hnr]
        dsimp only
        rw [if_pos hcap]
      rw [hred]
      rw [hnr] at h1
      simp [optCountI] at h1
      refine ⟨⟨?_, h2, h3, h4, h5, ?_⟩, rfl, rfl, rfl, rfl⟩
      · simp [optCountI]
        omega
      · intro hh
        exact ⟨(h6 hh).1, (h6 hh).2.1, (h6 hh).2.2⟩
    · have hred : dispatchIfCapacity s = s := by
        unfold dispatchIfCapacity
        rw [hnr]
        dsimp only
        rw [if_neg hcap]
      rw [hred]
      exact ⟨⟨h1, h2, h3, h4, h5, h6⟩, rfl, rfl, rfl, rfl⟩

theorem schedInv_loopIter (cfg : SchedConfig) (dt : ℚ) {s : SchedState}
    (h : SchedInv s) (hh : s.halted = false) : SchedInv (loopIter cfg dt s) := by
  have hg := schedInv_getNextRequest cfg h
  have hu := schedInv_updateCapacity cfg dt hg.1
  have hd := schedInv_dispatchIfCapacity hu
  unfold loopIter
  by_cases h0 : (dispatchIfCapacity
      (updateCapacity cfg dt (getNextRequest cfg s))).tracker.numTasksInProgress = 0
  · rw [if_pos h0]
    obtain ⟨⟨d1, d2, d3, d4, d5, d6⟩, dt1, dt2, dt3, dt4⟩ := hd
    have hzero : (getNextRequest cfg s).tracker.numTasksInProgress = 0 := by
      rw [dt1] at h0
      exact h0
    have hinput : (dispatchIfCapacity
        (updateCapacity cfg dt (getNextRequest cfg s))).inputRemaining = [] := by
      rw [dt2]
      exact hg.2.1 hzero
    have hqueue : (dispatchIfCapacity
        (updateCapacity cfg dt (getNextRequest cfg s))).queueOfRequestsToRetry = [] := by
      have hq : ((dispatchIfCapacity
          (updateCapacity cfg dt (getNextRequest cfg s))).queueOfRequestsToRetry.length
            : Int) = 0 := by
        have := optCountI_nonneg (dispatchIfCapacity
          (updateCapacity cfg dt (getNextRequest cfg s))).nextRequest
        have hfn : (0:Int) ≤ (dispatchIfCapacity
          (updateCapacity cfg dt (getNextRequest cfg s))).inFlight.length :=
          Int.ofNat_nonneg _
        have hqn : (0:Int) ≤ (dispatchIfCapacity
          (updateCapacity cfg dt (getNextRequest cfg s))).queueOfRequestsToRetry.length :=
          Int.ofNat_nonneg _
        omega
      exact List.length_eq_zero.mp (by exact_mod_cast hq)
    refine ⟨d1, d2, d3, d4, d5, ?_⟩
    · intro _
      exact ⟨h0, hinput, hqueue⟩
  · rw [if_neg h0]
    obtain ⟨⟨d1, d2, d3, d4, d5, d6⟩, dt1, dt2, dt3, dt4⟩ := hd
    exact ⟨d1, d2, d3, d4, d5, d6⟩

theorem schedInv_completeTask (cfg : SchedConfig) (i : Nat) {s : SchedState}
    (h : SchedInv s) (hhf : s.halted = false) : SchedInv (completeTask cfg i s) := by
  obtain ⟨h1, h2, h3, h4, h5, h6⟩ := h
  have hopt : 0 ≤ optCountI s.nextRequest := optCountI_nonneg _
  cases hif : s.inFlight[i]? with
  | none =>
    have hred : completeTask cfg i s = s := by
      unfold completeTask
      rw [hif]
    rw [hred]
    exact ⟨h1, h2, h3, h4, h5, h6⟩
  | some r =>
    have hlt : i < s.inFlight.length := by
      by_contra hge
      rw [List.getElem?_eq_none (Nat.le_of_not_lt hge)] at hif
      cases hif
    have hlen : ((s.inFlight.eraseIdx i).length : Int) = (s.inFlight.length : Int) - 1 := by
      rw [List.length_eraseIdx]
      rw [if_pos hlt]
      omega
    unfold completeTask
    rw [hif]
    try dsimp only
    cases hsp : r.spec r.result.length with
    | ok =>
      refine ⟨?_, ?_, ?_, ?_, ?_, ?_⟩
      · try dsimp only
        rw [hlen]
        omega
      · try dsimp only
        omega
      · try dsimp only
        push_cast [List.length_append, List.length_singleton]
        omega
      · exact h4
      · exact h5
      · intro hh
        replace hh : s.halted = true := hh
        rw [hhf] at hh
        cases hh
    | err e =>
      try dsimp only
      by_cases hatt : r.attemptsLeft ≠ 0
      · rw [if_pos hatt]
        refine ⟨?_, ?_, ?_, ?_, ?_, ?_⟩
        · try dsimp only
          cases hrl : cfg.isRateLimitException e <;>
            cases hapi : cfg.isApiException e <;>
            simp only [hrl, hapi, Bool.false_eq_true, if_true, if_false] <;>
            (try dsimp only) <;>
            push_cast [List.length_append, List.length_singleton] <;>
            omega
        · try dsimp only
          cases hrl : cfg.isRateLimitException e <;>
            cases hapi : cfg.isApiException e <;>
            simp only [hrl, hapi, Bool.false_eq_true, if_true, if_false] <;>
            (try dsimp only) <;>
            omega
        · try dsimp only
          cases hrl : cfg.isRateLimitException e <;>
            cases hapi : cfg.isApiException e <;>
            simp only [hrl, hapi, Bool.false_eq_true, if_true, if_false] <;>
            (try dsimp only) <;>
            omega
        · try dsimp only
          cases hrl : cfg.isRateLimitException e <;>
            cases hapi : cfg.isApiException e <;>
            simp only [hrl, hapi, Bool.false_eq_true, if_true, if_false] <;>
            (try dsimp only) <;>
            omega
        · exact h5
        · intro hh
          replace hh : s.halted = true := hh
          rw [hhf] at hh
          cases hh
      · rw [if_neg hatt]
        refine ⟨?_, ?_, ?_, ?_, ?_, ?_⟩
        · try dsimp only
          cases hrl : cfg.isRateLimitException e <;>
            cases hapi : cfg.isApiException e <;>
            simp only [hrl, hapi, Bool.false_eq_true, if_true, if_false] <;>
            (try dsimp only) <;>
            omega
        · try dsimp only
          cases hrl : cfg.isRateLimitException e <;>
            cases hapi : cfg.isApiException e <;>
            simp only [hrl, hapi, Bool.false_eq_true, if_true, if_false] <;>
            (try dsimp only) <;>
            omega
        · try dsimp only
          cases hrl : cfg.isRateLimitException e <;>
            cases hapi : cfg.isApiException e <;>
            simp only [hrl, hapi, Bool.false_eq_true, if_true, if_false] <;>
            (try dsimp only) <;>
            omega
        · try dsimp only
          cases hrl : cfg.isRateLimitException e <;>
            cases hapi : cfg.isApiException e <;>
            simp only [hrl, hapi, Bool.false_eq_true, if_true, if_false] <;>
            (try dsimp only) <;>
            push_cast [List.length_append, List.length_singleton] <;>
            omega
        · exact h5
        · intro hh
          replace hh : s.halted = true := hh
          rw [hhf] at hh
          cases hh

theorem schedInv_schedStep (cfg : SchedConfig) (a : SchedAction) {s : SchedState}
    (h : SchedInv s) : SchedInv (schedStep cfg s a) := by
  by_cases hh : s.halted = true
  · have hred : schedStep cfg s a = s := by
      unfold schedStep
      rw [if_pos hh]
    rw [hred]
    exact h
  · have hh2 : s.halted = false := by
      cases hq : s.halted
      · rfl
      · exact absurd hq hh
    cases a with
    | loop dt =>
      have hred : schedStep cfg s (SchedAction.loop dt) = loopIter cfg dt s := by
        unfold schedStep
        rw [if_neg hh]
      rw [hred]
      exact schedInv_loopIter cfg dt h hh2
    | complete i =>
      have hred : schedStep cfg s (SchedAction.complete i) = completeTask cfg i s := by
        unfold schedStep
        rw [if_neg hh]
      rw [hred]
      exact schedInv_completeTask cfg i h hh2

theorem schedInv_schedRun (cfg : SchedConfig) (acts : List SchedAction)
    {s : SchedState} (h : SchedInv s) : SchedInv (schedRun cfg acts s) := by
  induction acts generalizing s with
  | nil => exact h
  | cons a rest ih => exact ih (schedInv_schedStep cfg a h)

theorem schedInv_initState (cfg : SchedConfig) (input : List (Nat → Outcome)) :
    SchedInv (initState cfg input) := by
  refine ⟨?_, ?_, ?_, ?_, ?_, ?_⟩ <;> simp [initState, optCountI]

/-!
Preservation of the per-task attempt accounting.
-/

theorem attemptsInv_getNextRequest (cfg : SchedConfig) {s : SchedState}
    (h : AttemptsInv cfg s) : AttemptsInv cfg (getNextRequest cfg s) := by
  obtain ⟨hs, hq, hf, hd⟩ := h
  cases hnr : s.nextRequest with
  | some r =>
    have hred : getNextRequest cfg s = s := by
      unfold getNextRequest
      rw [hnr]
    rw [hred]
    exact ⟨hs, hq, hf, hd⟩
  | none =>
    cases hqq : s.queueOfRequestsToRetry with
    | cons r rest =>
      have hred : getNextRequest cfg s =
          { s with nextRequest := some r, queueOfRequestsToRetry := rest } := by
        unfold getNextRequest
        rw [hnr, hqq]
      rw [hred]
      refine ⟨?_, ?_, hf, hd⟩
      · intro r2 hr2
        replace hr2 : some r = some r2 := hr2
        injection hr2 with hr2
        rw [← hr2]
        exact hq r (by rw [hqq]; exact List.mem_cons_self r rest)
      · intro r2 hr2
        replace hr2 : r2 ∈ rest := hr2
        exact hq r2 (by rw [hqq]; exact List.mem_cons_of_mem r hr2)
    | nil =>
      cases hit : s.iteratorNotFinished with
      | false =>
        have hred : getNextRequest cfg s = s := by
          unfold getNextRequest
          rw [hnr, hqq, hit]
          simp
        rw [hred]
        exact ⟨hs, hq, hf, hd⟩
      | true =>
        cases hin : s.inputRemaining with
        | nil =>
          have hred : getNextRequest cfg s = { s with iteratorNotFinished := false } := by
            unfold getNextRequest
            rw [hnr, hqq, hit, hin]
            rfl
          rw [hred]
          exact ⟨hs, hq, hf, hd⟩
        | cons f rest =>
          have hred : getNextRequest cfg s =
              { s with
                nextRequest := some ⟨s.nextTaskId, f, cfg.maxAttempts, []⟩
                nextTaskId := s.nextTaskId + 1
                inputRemaining := rest
                tracker := { s.tracker with
                  numTasksStarted := s.tracker.numTasksStarted + 1
                  numTasksInProgress := s.tracker.numTasksInProgress + 1 } } := by
            unfold getNextRequest
            rw [hnr, hqq, hit, hin]
            rfl
          rw [hred]
          refine ⟨?_, hq, hf, hd⟩
          intro r2 hr2
          replace hr2 : some (⟨s.nextTaskId, f, cfg.maxAttempts, []⟩ : APIRequest) =
            some r2 := hr2
          injection hr2 with hr2
          rw [← hr2]
          intro _
          simp

theorem attemptsInv_dispatchIfCapacity (cfg : SchedConfig) {s : SchedState}
    (h : AttemptsInv cfg s) : AttemptsInv cfg (dispatchIfCapacity s) := by
  obtain ⟨hs, hq, hf, hd⟩ := h
  cases hnr : s.nextRequest with
  | none =>
    have hred : dispatchIfCapacity s = s := by
      unfold dispatchIfCapacity
      rw [hnr]
    rw [hred]
    exact ⟨hs, hq, hf, hd⟩
  | some r =>
    by_cases hcap : 1 ≤ s.availableRequestCapacity
    · have hred : dispatchIfCapacity s =
          { s with
            availableRequestCapacity := s.availableRequestCapacity - 1
            inFlight := s.inFlight ++ [{ r with attemptsLeft := r.attemptsLeft - 1 }]
            nextRequest := none } := by
        unfold dispatchIfCapacity
        rw [hnr]
        dsimp only
        rw [if_pos hcap]
      rw [hred]
      refine ⟨?_, hq, ?_, hd⟩
      · intro r2 hr2
        replace hr2 : (none : Option APIRequest) = some r2 := hr2
        cases hr2
      · intro r2 hr2
        replace hr2 : r2 ∈ s.inFlight ++ [{ r with attemptsLeft := r.attemptsLeft - 1 }] :=
          hr2
        rcases List.mem_append.mp hr2 with hold | hnew
        · exact hf r2 hold
        · rw [List.mem_singleton.mp hnew]
          intro haf
          have := hs r hnr haf
          dsimp only
          omega
    · have hred : dispatchIfCapacity s = s := by
        unfold dispatchIfCapacity
        rw [hnr]
        dsimp only
        rw [if_neg hcap]
      rw [hred]
      exact ⟨hs, hq, hf, hd⟩

theorem attemptsInv_updateCapacity (cfg : SchedConfig) (dt : ℚ) {s : SchedState}
    (h : AttemptsInv cfg s) : AttemptsInv cfg (updateCapacity cfg dt s) := by
  obtain ⟨hs, hq, hf, hd⟩ := h
  exact ⟨hs, hq, hf, hd⟩

theorem attemptsInv_completeTask (cfg : SchedConfig) (i : Nat) {s : SchedState}
    (h : AttemptsInv cfg s) : AttemptsInv cfg (completeTask cfg i s) := by
  obtain ⟨hs, hq, hf, hd⟩ := h
  cases hif : s.inFlight[i]? with
  | none =>
    have hred : completeTask cfg i s = s := by
      unfold completeTask
      rw [hif]
    rw [hred]
    exact ⟨hs, hq, hf, hd⟩
  | some r =>
    have hrmem : r ∈ s.inFlight := List.getElem?_mem hif
    have hrfly := hf r hrmem
    have herase : ∀ r2 ∈ s.inFlight.eraseIdx i, flyingAccounted cfg.maxAttempts r2 :=
      fun r2 hr2 => hf r2 ((List.eraseIdx_sublist s.inFlight i).subset hr2)
    unfold completeTask
    rw [hif]
    dsimp only
    cases hsp : r.spec r.result.length with
    | ok =>
      exact ⟨hs, hq, herase, hd⟩
    | err e =>
      dsimp only
      by_cases hatt : r.attemptsLeft ≠ 0
      · rw [if_pos hatt]
        refine ⟨hs, ?_, herase, hd⟩
        intro r2 hr2
        replace hr2 : r2 ∈ s.queueOfRequestsToRetry ++
          [{ r with result := r.result ++ [e] }] := hr2
        rcases List.mem_append.mp hr2 with hold | hnew
        · exact hq r2 hold
        · rw [List.mem_singleton.mp hnew]
          intro haf
          have hacc := hrfly haf
          dsimp only
          push_cast [List.length_append, List.length_singleton]
          omega
      · rw [if_neg hatt]
        refine ⟨hs, hq, herase, ?_⟩
        intro r2 hr2
        replace hr2 : r2 ∈ s.finalizedFailed ++
          [{ r with result := r.result ++ [e] }] := hr2
        rcases List.mem_append.mp hr2 with hold | hnew
        · exact hd r2 hold
        · rw [List.mem_singleton.mp hnew]
          intro haf
          have hacc := hrfly haf
          have hzero : r.attemptsLeft = 0 := by omega
          constructor
          · dsimp only
            push_cast [List.length_append, List.length_singleton]
            omega
          · exact hzero

theorem attemptsInv_loopIter (cfg : SchedConfig) (dt : ℚ) {s : SchedState}
    (h : AttemptsInv cfg s) : AttemptsInv cfg (loopIter cfg dt s) := by
  have hg := attemptsInv_getNextRequest cfg h
  have hu := attemptsInv_updateCapacity cfg dt hg
  have hd := attemptsInv_dispatchIfCapacity cfg hu
  unfold loopIter
  by_cases h0 : (dispatchIfCapacity
      (updateCapacity cfg dt (getNextRequest cfg s))).tracker.numTasksInProgress = 0
  · rw [if_pos h0]
    obtain ⟨d1, d2, d3, d4⟩ := hd
    exact ⟨d1, d2, d3, d4⟩
  · rw [if_neg h0]
    exact hd

theorem attemptsInv_schedStep (cfg : SchedConfig) (a : SchedAction) {s : SchedState}
    (h : AttemptsInv cfg s) : AttemptsInv cfg (schedStep cfg s a) := by
  by_cases hh : s.halted = true
  · have hred : schedStep cfg s a = s := by
      unfold schedStep
      rw [if_pos hh]
    rw [hred]
    exact h
  · cases a with
    | loop dt =>
      have hred : schedStep cfg s (SchedAction.loop dt) = loopIter cfg dt s := by
        unfold schedStep
        rw [if_neg hh]
      rw [hred]
      exact attemptsInv_loopIter cfg dt h
    | complete i =>
      have hred : schedStep cfg s (SchedAction.complete i) = completeTask cfg i s := by
        unfold schedStep
        rw [if_neg hh]
      rw [hred]
      exact attemptsInv_completeTask cfg i h

theorem attemptsInv_schedRun (cfg : SchedConfig) (acts : List SchedAction)
    {s : SchedState} (h : AttemptsInv cfg s) : AttemptsInv cfg (schedRun cfg acts s) := by
  induction acts generalizing s with
  | nil => exact h
  | cons a rest ih => exact ih (attemptsInv_schedStep cfg a h)

theorem attemptsInv_initState (cfg : SchedConfig) (input : List (Nat → Outcome)) :
    AttemptsInv cfg (initState cfg input) := by
  refine ⟨?_, ?_, ?_, ?_⟩
  · intro r hr
    replace hr : (none : Option APIRequest) = some r := hr
    cases hr
  · intro r hr
    replace hr : r ∈ ([] : List APIRequest) := hr
    cases hr
  · intro r hr
    replace hr : r ∈ ([] : List APIRequest) := hr
    cases hr
  · intro r hr
    replace hr : r ∈ ([] : List APIRequest) := hr
    cases hr

/-!
The token bucket bounds: capacity stays within [0, max_requests_per_minute].
-/

theorem getNextRequest_capacity (cfg : SchedConfig) (s : SchedState) :
    (getNextRequest cfg s).availableRequestCapacity = s.availableRequestCapacity := by
  unfold getNextRequest
  cases hnr : s.nextRequest with
  | some r => rfl
  | none =>
    cases hqq : s.queueOfRequestsToRetry with
    | cons r rest => rfl
    | nil =>
      cases hit : s.iteratorNotFinished with
      | true =>
        cases hin : s.inputRemaining with
        | cons f rest => rfl
        | nil => rfl
      | false => rfl

theorem completeTask_capacity (cfg : SchedConfig) (i : Nat) (s : SchedState) :
    (completeTask cfg i s).availableRequestCapacity = s.availableRequestCapacity := by
  unfold completeTask
  cases hif : s.inFlight[i]? with
  | none => rfl
  | some r =>
    dsimp only
    cases hsp : r.spec r.result.length with
    | ok => rfl
    | err e =>
      dsimp only
      by_cases hatt : r.attemptsLeft ≠ 0
      · rw [if_pos hatt]
      · rw [if_neg hatt]

theorem capacity_dispatchIfCapacity (cfg : SchedConfig) (s : SchedState)
    (hlo : 0 ≤ s.availableRequestCapacity)
    (hhi : s.availableRequestCapacity ≤ cfg.maxRequestsPerMinute) :
    0 ≤ (dispatchIfCapacity s).availableRequestCapacity ∧
      (dispatchIfCapacity s).availableRequestCapacity ≤ cfg.maxRequestsPerMinute := by
  unfold dispatchIfCapacity
  cases hnr : s.nextRequest with
  | none => exact ⟨hlo, hhi⟩
  | some r =>
    dsimp only
    by_cases hcap : 1 ≤ s.availableRequestCapacity
    · rw [if_pos hcap]
      constructor
      · dsimp only
        linarith
      · dsimp only
        linarith
    · rw [if_neg hcap]
      exact ⟨hlo, hhi⟩

theorem capacity_loopIter (cfg : SchedConfig) (dt : ℚ) {s : SchedState}
    (hR : 0 ≤ cfg.maxRequestsPerMinute) (hdt : 0 ≤ dt)
    (hlo : 0 ≤ s.availableRequestCapacity)
    (hhi : s.availableRequestCapacity ≤ cfg.maxRequestsPerMinute) :
    0 ≤ (loopIter cfg dt s).availableRequestCapacity ∧
      (loopIter cfg dt s).availableRequestCapacity ≤ cfg.maxRequestsPerMinute := by
  have hc1 := getNextRequest_capacity cfg s
  have hc2lo : 0 ≤ (updateCapacity cfg dt (getNextRequest cfg s)).availableRequestCapacity := by
    unfold updateCapacity
    dsimp only
    apply le_min
    · have hm : 0 ≤ cfg.maxRequestsPerMinute * dt / 60 :=
        div_nonneg (mul_nonneg hR hdt) (by norm_num)
      rw [hc1]
      linarith
    · exact hR
  have hc2hi : (updateCapacity cfg dt
      (getNextRequest cfg s)).availableRequestCapacity ≤ cfg.maxRequestsPerMinute := by
    unfold updateCapacity
    dsimp only
    exact min_le_right _ _
  have hd := capacity_dispatchIfCapacity cfg (updateCapacity cfg dt (getNextRequest cfg s))
    hc2lo hc2hi
  unfold loopIter
  by_cases h0f : (dispatchIfCapacity (updateCapacity cfg dt
      (getNextRequest cfg s))).tracker.numTasksInProgress = 0
  · rw [if_pos h0f]
    exact hd
  · rw [if_neg h0f]
    exact hd

theorem capacity_schedRun (cfg : SchedConfig) (acts : List SchedAction) {s : SchedState}
    (hR : 0 ≤ cfg.maxRequestsPerMinute)
    (hdt : ∀ dt, SchedAction.loop dt ∈ acts → 0 ≤ dt)
    (hlo : 0 ≤ s.availableRequestCapacity)
    (hhi : s.availableRequestCapacity ≤ cfg.maxRequestsPerMinute) :
    0 ≤ (schedRun cfg acts s).availableRequestCapacity ∧
      (schedRun cfg acts s).availableRequestCapacity ≤ cfg.maxRequestsPerMinute := by
  induction acts generalizing s with
  | nil => exact ⟨hlo, hhi⟩
  | cons a rest ih =>
    have hstep : 0 ≤ (schedStep cfg s a).availableRequestCapacity ∧
        (schedStep cfg s a).availableRequestCapacity ≤ cfg.maxRequestsPerMinute := by
      by_cases hh : s.halted = true
      · have hred : schedStep cfg s a = s := by
          unfold schedStep
          rw [if_pos hh]
        rw [hred]
        exact ⟨hlo, hhi⟩
      · cases a with
        | loop dt =>
          have hred : schedStep cfg s (SchedAction.loop dt) = loopIter cfg dt s := by
            unfold schedStep
            rw [if_neg hh]
          rw [hred]
          exact capacity_loopIter cfg dt hR
            (hdt dt (List.mem_cons_self _ _)) hlo hhi
        | complete i =>
          have hred : schedStep cfg s (SchedAction.complete i) = completeTask cfg i s := by
            unfold schedStep
            rw [if_neg hh]
          rw [hred, completeTask_capacity]
          exact ⟨hlo, hhi⟩
    exact ih (fun dt hm => hdt dt (List.mem_cons_of_mem a hm)) hstep.1 hstep.2

/-!
Properties of the canonical sorted representation of frozendicts.
-/

theorem toImmutableList_eq_map (xs : List PyVal) :
    toImmutableList xs = xs.map toImmutable := by
  induction xs with
  | nil => rfl
  | cons x xs ih =>
    simp [toImmutableList, ih]

theorem toImmutableEntries_eq_map (es : List (String × PyVal)) :
    toImmutableEntries es = es.map (fun e => (e.1, toImmutable e.2)) := by
  induction es with
  | nil => rfl
  | cons e es ih =>
    obtain ⟨k, v⟩ := e
    simp [toImmutableEntries, ih]

theorem insertEntry_perm (e : String × PyVal) (l : List (String × PyVal)) :
    (insertEntry e l).Perm (e :: l) := by
  induction l with
  | nil => exact List.Perm.refl _
  | cons f rest ih =>
    unfold insertEntry
    by_cases h : e.1 ≤ f.1
    · rw [if_pos h]
    · rw [if_neg h]
      exact List.Perm.trans (List.Perm.cons f ih) (List.Perm.swap e f rest)

theorem sortByKey_perm (l : List (String × PyVal)) : (sortByKey l).Perm l := by
  induction l with
  | nil => exact List.Perm.refl _
  | cons e rest ih =>
    exact List.Perm.trans (insertEntry_perm e _) (List.Perm.cons e ih)

theorem mem_insertEntry {x e : String × PyVal} {l : List (String × PyVal)}
    (h : x ∈ insertEntry e l) : x = e ∨ x ∈ l := by
  have := (insertEntry_perm e l).subset h
  exact List.mem_cons.mp this

theorem insertEntry_sorted (e : String × PyVal) {l : List (String × PyVal)}
    (h : l.Pairwise keyLe) : (insertEntry e l).Pairwise keyLe := by
  induction l with
  | nil => simp [insertEntry]
  | cons f rest ih =>
    obtain ⟨hf, hrest⟩ := List.pairwise_cons.mp h
    unfold insertEntry
    by_cases hle : e.1 ≤ f.1
    · rw [if_pos hle]
      refine List.pairwise_cons.mpr ⟨?_, h⟩
      intro x hx
      rcases List.mem_cons.mp hx with hx | hx
      · rw [hx]
        exact hle
      · exact le_trans hle (hf x hx)
    · rw [if_neg hle]
      refine List.pairwise_cons.mpr ⟨?_, ih hrest⟩
      intro x hx
      rcases mem_insertEntry hx with hx | hx
      · rw [hx]
        exact le_of_not_le hle
      · exact hf x hx

theorem sortByKey_sorted (l : List (String × PyVal)) : (sortByKey l).Pairwise keyLe := by
  induction l with
  | nil => simp [sortByKey]
  | cons e rest ih => exact insertEntry_sorted e ih

theorem sorted_perm_nodupKeys_eq :
    ∀ l1 l2 : List (String × PyVal), l1.Perm l2 → l1.Pairwise keyLe →
      l2.Pairwise keyLe → (l1.map Prod.fst).Nodup → l1 = l2 := by
  intro l1
  induction l1 with
  | nil =>
    intro l2 hp _ _ _
    exact (hp.symm.eq_nil).symm
  | cons a t1 ih =>
    intro l2 hp hs1 hs2 hnd
    cases l2 with
    | nil =>
      cases hp.eq_nil
    | cons b t2 =>
      have hab : a = b := by
        have hain : a ∈ b :: t2 := hp.subset (List.mem_cons_self a t1)
        have hbin : b ∈ a :: t1 := hp.symm.subset (List.mem_cons_self b t2)
        rcases List.mem_cons.mp hain with h1 | h1
        · exact h1
        · rcases List.mem_cons.mp hbin with h2 | h2
          · exact h2.symm
          · have h3 : keyLe a b := (List.pairwise_cons.mp hs1).1 b h2
            have h4 : keyLe b a := (List.pairwise_cons.mp hs2).1 a h1
            have hk : a.1 = b.1 := le_antisymm h3 h4
            exfalso
            have hmem : a.1 ∈ t1.map Prod.fst := by
              rw [hk]
              exact List.mem_map_of_mem Prod.fst h2
            exact (List.nodup_cons.mp hnd).1 hmem
      subst hab
      have ht : t1 = t2 := ih t2 hp.cons_inv (List.pairwise_cons.mp hs1).2
        (List.pairwise_cons.mp hs2).2 (List.nodup_cons.mp hnd).2
      rw [ht]

/-!
Persistence helper lemmas for the reload-merge-write discipline.
-/

section PersistLemmas

variable {K V : Type} [DecidableEq K]

theorem writeCacheToDisk_disk_some (m d : List (K × V)) :
    (writeCacheToDisk false ⟨m, some d⟩).disk = some (dictUpdate m d) := rfl

theorem persistSeq_cons (m : List (K × V)) (ws : List (List (K × V)))
    (d : List (K × V)) :
    persistSeq (m :: ws) (some d) = persistSeq ws (some (dictUpdate m d)) := rfl

theorem persistSeq_contains (ws : List (List (K × V))) (d : List (K × V)) (k : K)
    (h : dictContains d k = true) :
    ∃ dN, persistSeq ws (some d) = some dN ∧ dictContains dN k = true := by
  induction ws generalizing d with
  | nil => exact ⟨d, rfl, h⟩
  | cons m ws ih =>
    rw [persistSeq_cons]
    apply ih
    rw [dictContains_update]
    simp [h]

theorem persistSeq_lookup_preserved (ws : List (List (K × V))) (d : List (K × V))
    (k : K) (hd : NodupKeys d) (hws : ∀ m ∈ ws, NodupKeys m)
    (hk : dictContains d k = true)
    (hnot : ∀ m ∈ ws, dictContains m k = false) :
    ∃ dN, persistSeq ws (some d) = some dN ∧ dictLookup dN k = dictLookup d k := by
  induction ws generalizing d with
  | nil => exact ⟨d, rfl, rfl⟩
  | cons m ws ih =>
    rw [persistSeq_cons]
    have hd1 : NodupKeys (dictUpdate m d) :=
      dictNodupKeys_update d (hws m (List.mem_cons_self m ws))
    have hk1 : dictContains (dictUpdate m d) k = true := by
      rw [dictContains_update]
      simp [hk]
    obtain ⟨dN, h1, h2⟩ := ih (dictUpdate m d) hd1
      (fun m2 hm2 => hws m2 (List.mem_cons_of_mem m hm2)) hk1
      (fun m2 hm2 => hnot m2 (List.mem_cons_of_mem m hm2))
    exact ⟨dN, h1, h2.trans (dictLookup_update_contains m hd hk)⟩

theorem persistSeq_union (writers : List (List (K × V))) :
    ∀ (d0 : List (K × V)) (i : Nat) (hi : i < writers.length) (k : K),
      NodupKeys d0 → (∀ m ∈ writers, NodupKeys m) →
      dictContains (writers.get ⟨i, hi⟩) k = true →
      (∀ j (hj : j < writers.length), j ≠ i →
        dictContains (writers.get ⟨j, hj⟩) k = false) →
      dictContains d0 k = false →
      ∃ dN, persistSeq writers (some d0) = some dN ∧
        dictLookup dN k = dictLookup (writers.get ⟨i, hi⟩) k := by
  induction writers with
  | nil =>
    intro d0 i hi
    cases Nat.not_lt_zero i hi
  | cons m ws ih =>
    intro d0 i hi k hnd0 hndw hcont hothers hd0
    cases i with
    | zero =>
      have hlk : dictLookup (dictUpdate m d0) k = dictLookup m k :=
        dictLookup_update_not_contains m hd0
      have hcm : dictContains m k = true := hcont
      have hnd1 : NodupKeys (dictUpdate m d0) :=
        dictNodupKeys_update d0 (hndw m (List.mem_cons_self m ws))
      have hk1 : dictContains (dictUpdate m d0) k = true := by
        rw [dictContains_update]
        simp [hcm]
      have hnotws : ∀ m2 ∈ ws, dictContains m2 k = false := by
        intro m2 hm2
        obtain ⟨n, hn⟩ := List.mem_iff_get.mp hm2
        have := hothers (n.1 + 1) (Nat.succ_lt_succ n.2) (Nat.succ_ne_zero n.1)
        rw [← hn]
        exact this
      obtain ⟨dN, h1, h2⟩ := persistSeq_lookup_preserved ws (dictUpdate m d0) k hnd1
        (fun m2 hm2 => hndw m2 (List.mem_cons_of_mem m hm2)) hk1 hnotws
      rw [persistSeq_cons]
      exact ⟨dN, h1, h2.trans hlk⟩
    | succ i0 =>
      have hm0 : dictContains m k = false :=
        hothers 0 (Nat.succ_pos _) (Ne.symm (Nat.succ_ne_zero i0))
      have hd1 : dictContains (dictUpdate m d0) k = false := by
        rw [dictContains_update, hm0, hd0]
        rfl
      have hnd1 : NodupKeys (dictUpdate m d0) :=
        dictNodupKeys_update d0 (hndw m (List.mem_cons_self m ws))
      rw [persistSeq_cons]
      exact ih (dictUpdate m d0) i0 (Nat.lt_of_succ_lt_succ hi) k hnd1
        (fun m2 hm2 => hndw m2 (List.mem_cons_of_mem m hm2)) hcont
        (fun j hj hne => hothers (j + 1) (Nat.succ_lt_succ hj)
          (fun hc => hne (Nat.succ_injective hc)))
        hd1

end PersistLemmas

/-!
The claims.
-/

/-- C1: the claim states that for both process_half_async settings a memoized
synchronous call computes once, stores, persists, and returns the computed
value, and that a second structurally equal call returns the cached value
without re-invoking the function. The first conjunct shows this holds for
process_half_async = true (the default). The second conjunct exhibits the
bug for process_half_async = false: on a cache miss the source runs
val = self._sync_overwrite_result(key, val), and _sync_overwrite_result has
no return statement, so the wrapper caches and persists the computed value 4
but returns None to its caller instead of 4. -/
theorem C1_sync_call_miss_returns_none :
    (let cfg : MemoConfig Nat := ⟨false, true, fun _ => false⟩
     let r1 := syncCall cfg (fun n => n + 1) (fun a : Nat => a) 3 ⟨[], none⟩
     let r2 := syncCall cfg (fun n => n + 1) (fun a : Nat => a) 3 r1.1
     r1.2.1 = some 4 ∧ r1.2.2 = true ∧ r2.2.1 = some 4 ∧ r2.2.2 = false) ∧
    (let cfg : MemoConfig Nat := ⟨false, false, fun _ => false⟩
     let r1 := syncCall cfg (fun n => n + 1) (fun a : Nat => a) 3 ⟨[], none⟩
     r1.2.1 = none ∧ (fun n : Nat => n + 1) 3 = 4 ∧
       dictLookup r1.1.cache 3 = some 4 ∧ r1.1.disk = some [(3, 4)] ∧
       r1.2.2 = true) := by
  exact ⟨⟨rfl, rfl, rfl, rfl⟩, ⟨rfl, rfl, rfl, rfl, rfl⟩⟩

/-- C2: if the write callback passed to write_via_temp raises
mid-serialization, the target file is byte-identical to before, the
temporary file has been removed, and the exception propagates. -/
theorem C2_write_via_temp_failure_safety {E : Type} (fs : FS)
    (filePath tempPath : String) (e : E) (w : Bytes)
    (hfresh : dictContains fs tempPath = false) :
    dictLookup (writeViaTemp fs filePath tempPath (DoWrite.raise e w)).1 filePath =
        dictLookup fs filePath ∧
      dictLookup (writeViaTemp fs filePath tempPath (DoWrite.raise e w)).1 tempPath =
        none ∧
      (writeViaTemp fs filePath tempPath (DoWrite.raise e w)).2 = some e := by
  have hfs : dictErase (dictInsert fs tempPath w) tempPath = fs :=
    dictErase_insert_fresh w hfresh
  have hred : (writeViaTemp fs filePath tempPath (DoWrite.raise e w)).1 =
      dictErase (dictInsert fs tempPath w) tempPath := rfl
  rw [hred, hfs]
  exact ⟨rfl, dictLookup_eq_none_of_not_contains hfresh, rfl⟩

/-- Witness for C2 on a concrete file system. -/
theorem C2_write_via_temp_failure_safety_witness :
    dictLookup (writeViaTemp [("cache.pkl", [1, 2])] "cache.pkl" "tmp0"
        (DoWrite.raise (7 : Nat) [9])).1 "cache.pkl" =
        dictLookup [("cache.pkl", [1, 2])] "cache.pkl" ∧
      dictLookup (writeViaTemp [("cache.pkl", [1, 2])] "cache.pkl" "tmp0"
        (DoWrite.raise (7 : Nat) [9])).1 "tmp0" = none ∧
      (writeViaTemp [("cache.pkl", [1, 2])] "cache.pkl" "tmp0"
        (DoWrite.raise (7 : Nat) [9])).2 = some 7 :=
  C2_write_via_temp_failure_safety [("cache.pkl", [1, 2])] "cache.pkl" "tmp0" 7 [9]
    (by decide)

/-- C4: a persist without skip_load first reload-merges the durable file
into the in-memory mapping, so every durable key survives the write (first
conjunct, for one writer, and second conjunct, through any further sequence
of writers); and writers holding pairwise disjoint keys, each persisting in
turn, leave the durable store containing the union of all their entries
(third conjunct: the key of each writer keeps the value written by that writer). -/
theorem C4_reload_merge_union {K V : Type} [DecidableEq K] :
    (∀ (c d : List (K × V)) (k : K), dictContains d k = true →
      ∃ d2, (writeCacheToDisk false ⟨c, some d⟩).disk = some d2 ∧
        dictContains d2 k = true) ∧
    (∀ (writers : List (List (K × V))) (d0 : List (K × V)) (k : K),
      dictContains d0 k = true →
      ∃ dN, persistSeq writers (some d0) = some dN ∧ dictContains dN k = true) ∧
    (∀ (writers : List (List (K × V))) (d0 : List (K × V)) (i : Nat)
      (hi : i < writers.length) (k : K),
      NodupKeys d0 → (∀ m ∈ writers, NodupKeys m) →
      dictContains (writers.get ⟨i, hi⟩) k = true →
      (∀ j (hj : j < writers.length), j ≠ i →
        dictContains (writers.get ⟨j, hj⟩) k = false) →
      dictContains d0 k = false →
      ∃ dN, persistSeq writers (some d0) = some dN ∧
        dictLookup dN k = dictLookup (writers.get ⟨i, hi⟩) k) := by
  refine ⟨?_, ?_, ?_⟩
  · intro c d k h
    refine ⟨dictUpdate c d, writeCacheToDisk_disk_some c d, ?_⟩
    rw [dictContains_update, h]
    simp
  · intro writers d0 k h
    exact persistSeq_contains writers d0 k h
  · intro writers d0 i hi k h1 h2 h3 h4 h5
    exact persistSeq_union writers d0 i hi k h1 h2 h3 h4 h5

/-- Witness for C4: two writers with disjoint keys 1 and 2 over an initial
durable store holding key 0; writer 0 finds its own value for key 1 in the
final durable store. -/
theorem C4_reload_merge_union_witness :
    ∃ dN, persistSeq [[(1, 10)], [(2, 20)]] (some [((0 : Nat), (5 : Nat))]) = some dN ∧
      dictLookup dN 1 = dictLookup ([[(1, 10)], [(2, 20)]].get ⟨0, by norm_num⟩) 1 :=
  C4_reload_merge_union.2.2 [[(1, 10)], [(2, 20)]] [(0, 5)] 0 (by norm_num) 1
    (by unfold NodupKeys; decide) (by unfold NodupKeys; decide) (by decide)
    (by decide) (by decide)

/-- C9: Memoize._uncache reload-merges and then raises KeyError exactly when
the key is absent from both the in-memory cache and the durable file; when
the key is present in the merged mapping it deletes that one entry, persists
(the durable file equals the new in-memory mapping), and every other key
keeps its merged value. -/
theorem C9_uncache_behaviour {K V : Type} [DecidableEq K] (s : MemoState K V)
    (key : K) (hnc : NodupKeys s.cache)
    (hnd : ∀ d, s.disk = some d → NodupKeys d) :
    (dictContains s.cache key = false ∧
        (∀ d, s.disk = some d → dictContains d key = false) →
      (uncacheM s key).2 = true) ∧
    (dictContains (loadCacheFromDisk s).cache key = true →
      (uncacheM s key).2 = false ∧
        (uncacheM s key).1.disk = some (uncacheM s key).1.cache ∧
        dictLookup (uncacheM s key).1.cache key = none ∧
        (∀ k2, k2 ≠ key →
          dictLookup (uncacheM s key).1.cache k2 =
            dictLookup (loadCacheFromDisk s).cache k2)) := by
  have hmerged : NodupKeys (loadCacheFromDisk s).cache := by
    cases hd : s.disk with
    | none =>
      unfold loadCacheFromDisk
      rw [hd]
      exact hnc
    | some d =>
      unfold loadCacheFromDisk
      rw [hd]
      exact dictNodupKeys_update d hnc
  constructor
  · rintro ⟨hc, hdisk⟩
    have hmc : dictContains (loadCacheFromDisk s).cache key = false := by
      cases hd : s.disk with
      | none =>
        unfold loadCacheFromDisk
        rw [hd]
        exact hc
      | some d =>
        unfold loadCacheFromDisk
        rw [hd]
        show dictContains (dictUpdate s.cache d) key = false
        rw [dictContains_update, hc, hdisk d hd]
        rfl
    have hnone := dictLookup_eq_none_of_not_contains hmc
    unfold uncacheM
    dsimp only
    rw [hnone]
  · intro hcont
    obtain ⟨v, hv⟩ : ∃ v, dictLookup (loadCacheFromDisk s).cache key = some v := by
      unfold dictContains at hcont
      exact Option.isSome_iff_exists.mp hcont
    have hred : uncacheM s key =
        (⟨dictErase (loadCacheFromDisk s).cache key,
          some (dictErase (loadCacheFromDisk s).cache key)⟩, false) := by
      unfold uncacheM
      dsimp only
      rw [hv]
      rfl
    rw [hred]
    exact ⟨rfl, rfl, dictLookup_erase_self hmerged,
      fun k2 hk2 => dictLookup_erase_ne _ hk2⟩

/-- Witness for C9: key 2 lives only in the durable file; uncache deletes it
and keeps key 1. -/
theorem C9_uncache_behaviour_witness :
    (uncacheM (⟨[(1, 10)], some [(2, 20)]⟩ : MemoState Nat Nat) 2).2 = false ∧
      (uncacheM (⟨[(1, 10)], some [(2, 20)]⟩ : MemoState Nat Nat) 2).1.disk =
        some (uncacheM (⟨[(1, 10)], some [(2, 20)]⟩ : MemoState Nat Nat) 2).1.cache ∧
      dictLookup (uncacheM (⟨[(1, 10)], some [(2, 20)]⟩ : MemoState Nat Nat) 2).1.cache
        2 = none ∧
      (∀ k2, k2 ≠ 2 →
        dictLookup (uncacheM (⟨[(1, 10)], some [(2, 20)]⟩ : MemoState Nat Nat) 2).1.cache
            k2 =
          dictLookup
            (loadCacheFromDisk (⟨[(1, 10)], some [(2, 20)]⟩ : MemoState Nat Nat)).cache
            k2) :=
  (C9_uncache_behaviour (⟨[(1, 10)], some [(2, 20)]⟩ : MemoState Nat Nat) 2
    (by unfold NodupKeys; decide)
    (fun d hd => by cases hd; unfold NodupKeys; decide)).2 (by decide)

/-- C8: to_immutable sends lists and tuples to tuples of recursively
canonicalized elements, dicts to frozendicts with the same keys and
canonicalized values (conjuncts 1 to 3), leaves scalars unchanged
(conjunct 4); two calls get the same CacheKey exactly when positional and
keyword arguments are structurally equal under this canonicalization
(conjunct 5); and the canonical form forgets container identity: a list and
a tuple of the same elements canonicalize alike (conjunct 6), and dicts that
are permutations of each other with distinct keys canonicalize alike
(conjunct 7, frozendict equality is order-irrelevant mapping equality). -/
theorem C8_canonical_key :
    (∀ xs, toImmutable (.list xs) = .tuple (xs.map toImmutable)) ∧
    (∀ xs, toImmutable (.tuple xs) = .tuple (xs.map toImmutable)) ∧
    (∀ es, toImmutable (.dict es) =
      .frozendict (sortByKey (es.map (fun e => (e.1, toImmutable e.2))))) ∧
    (∀ a, toImmutable (.atom a) = .atom a) ∧
    (∀ a1 k1 a2 k2, keyOfArgs a1 k1 = keyOfArgs a2 k2 ↔
      (toImmutable (.tuple a1) = toImmutable (.tuple a2) ∧
        toImmutable (.dict k1) = toImmutable (.dict k2))) ∧
    (∀ xs, toImmutable (.list xs) = toImmutable (.tuple xs)) ∧
    (∀ es1 es2 : List (String × PyVal), es1.Perm es2 →
      (es1.map Prod.fst).Nodup →
      toImmutable (.dict es1) = toImmutable (.dict es2)) := by
  refine ⟨?_, ?_, ?_, ?_, ?_, ?_, ?_⟩
  · intro xs
    show PyVal.tuple (toImmutableList xs) = _
    rw [toImmutableList_eq_map]
  · intro xs
    show PyVal.tuple (toImmutableList xs) = _
    rw [toImmutableList_eq_map]
  · intro es
    show PyVal.frozendict (sortByKey (toImmutableEntries es)) = _
    rw [toImmutableEntries_eq_map]
  · intro a
    rfl
  · intro a1 k1 a2 k2
    unfold keyOfArgs
    exact Prod.ext_iff
  · intro xs
    rfl
  · intro es1 es2 hp hnd
    show PyVal.frozendict (sortByKey (toImmutableEntries es1)) =
      PyVal.frozendict (sortByKey (toImmutableEntries es2))
    have hpm : (toImmutableEntries es1).Perm (toImmutableEntries es2) := by
      rw [toImmutableEntries_eq_map, toImmutableEntries_eq_map]
      exact hp.map _
    have hps : (sortByKey (toImmutableEntries es1)).Perm
        (sortByKey (toImmutableEntries es2)) :=
      ((sortByKey_perm _).trans hpm).trans (sortByKey_perm _).symm
    have hkeys : (toImmutableEntries es1).map Prod.fst = es1.map Prod.fst := by
      rw [toImmutableEntries_eq_map, List.map_map]
      rfl
    have hnd1 : ((sortByKey (toImmutableEntries es1)).map Prod.fst).Nodup := by
      have hkp : ((sortByKey (toImmutableEntries es1)).map Prod.fst).Perm
          ((toImmutableEntries es1).map Prod.fst) := (sortByKey_perm _).map _
      rw [hkp.nodup_iff, hkeys]
      exact hnd
    exact congrArg PyVal.frozendict (sorted_perm_nodupKeys_eq _ _ hps
      (sortByKey_sorted _) (sortByKey_sorted _) hnd1)

/-- Witness for C8: a two-entry dict canonicalizes the same regardless of
insertion order. -/
theorem C8_canonical_key_witness :
    toImmutable (.dict [("b", .atom "2"), ("a", .atom "1")]) =
      toImmutable (.dict [("a", .atom "1"), ("b", .atom "2")]) :=
  C8_canonical_key.2.2.2.2.2.2 [("b", .atom "2"), ("a", .atom "1")]
    [("a", .atom "1"), ("b", .atom "2")]
    (List.Perm.swap ("a", PyVal.atom "1") ("b", PyVal.atom "2") [])
    (by decide)

/-- C3: with max_attempts = k positive, a deferred call every invocation of
which raises is invoked exactly k times before its task is finalized as
failed: every execution that finalizes such a task as failed leaves it with
exactly k recorded errors (one per invocation) and zero attempts left, and
num_tasks_failed counts exactly the finalized-as-failed tasks, which are
never requeued. -/
theorem C3_always_failing_invoked_k_times (cfg : SchedConfig)
    (input : List (Nat → Outcome)) (acts : List SchedAction) (k : Int)
    (hk : cfg.maxAttempts = k) (hkpos : 0 < k) (r : APIRequest)
    (hr : r ∈ (schedRun cfg acts (initState cfg input)).finalizedFailed)
    (hf : alwaysFails r.spec) :
    (r.result.length : Int) = k ∧ r.attemptsLeft = 0 ∧
      (schedRun cfg acts (initState cfg input)).tracker.numTasksFailed =
        ((schedRun cfg acts (initState cfg input)).finalizedFailed.length : Int) := by
  have hinv := attemptsInv_schedRun cfg acts (attemptsInv_initState cfg input)
  have hacc := hinv.failedDone r hr hf
  rw [hk] at hacc
  have hsched := schedInv_schedRun cfg acts (schedInv_initState cfg input)
  exact ⟨hacc.1, hacc.2, hsched.failedEq⟩

/-- Witness for C3: one always-failing deferred call under max_attempts = 2
is invoked exactly twice and finalized as failed. -/
theorem C3_always_failing_invoked_k_times_witness :
    ((⟨0, failSpec, 0, [0, 0]⟩ : APIRequest).result.length : Int) = 2 ∧
      (⟨0, failSpec, 0, [0, 0]⟩ : APIRequest).attemptsLeft = 0 ∧
      (schedRun schedCfgA actsFail (initState schedCfgA [failSpec])).tracker.numTasksFailed =
        ((schedRun schedCfgA actsFail
          (initState schedCfgA [failSpec])).finalizedFailed.length : Int) :=
  C3_always_failing_invoked_k_times schedCfgA [failSpec] actsFail 2 rfl
    (by norm_num) ⟨0, failSpec, 0, [0, 0]⟩
    (by
      have hfin : (schedRun schedCfgA actsFail
          (initState schedCfgA [failSpec])).finalizedFailed
          = [⟨0, failSpec, 0, [0, 0]⟩] := by
        norm_num [schedRun, schedStep, actsFail, loopIter, getNextRequest,
          updateCapacity, dispatchIfCapacity, completeTask, initState, schedCfgA,
          failSpec, optCountI]
      rw [hfin]
      exact List.mem_singleton.mpr rfl)
    (fun n h => Outcome.noConfusion h)

theorem getNextRequest_halted (cfg : SchedConfig) (s : SchedState) :
    (getNextRequest cfg s).halted = s.halted := by
  unfold getNextRequest
  cases hnr : s.nextRequest with
  | some r => rfl
  | none =>
    cases hqq : s.queueOfRequestsToRetry with
    | cons r rest => rfl
    | nil =>
      cases hit : s.iteratorNotFinished with
      | true =>
        cases hin : s.inputRemaining with
        | cons f rest => rfl
        | nil => rfl
      | false => rfl

theorem dispatchIfCapacity_halted (s : SchedState) :
    (dispatchIfCapacity s).halted = s.halted := by
  unfold dispatchIfCapacity
  cases hnr : s.nextRequest with
  | none => rfl
  | some r =>
    dsimp only
    by_cases hcap : 1 ≤ s.availableRequestCapacity
    · rw [if_pos hcap]
    · rw [if_neg hcap]

/-- C5: throughout every execution from the initial state the available
capacity stays within [0, max_requests_per_minute] (first conjunct, over
every schedule made of nonnegative elapsed times and completions, hence at
every reachable state), and no token is consumed while less than one whole
token is available (second conjunct). -/
theorem C5_token_bucket_bounds (cfg : SchedConfig) (input : List (Nat → Outcome))
    (acts : List SchedAction) (hR : 0 ≤ cfg.maxRequestsPerMinute)
    (hdt : ∀ dt, SchedAction.loop dt ∈ acts → 0 ≤ dt) :
    (0 ≤ (schedRun cfg acts (initState cfg input)).availableRequestCapacity ∧
      (schedRun cfg acts (initState cfg input)).availableRequestCapacity ≤
        cfg.maxRequestsPerMinute) ∧
    (∀ s : SchedState, s.availableRequestCapacity < 1 →
      (dispatchIfCapacity s).availableRequestCapacity =
        s.availableRequestCapacity) := by
  constructor
  · exact capacity_schedRun cfg acts hR hdt hR (le_refl _)
  · intro s hlt
    unfold dispatchIfCapacity
    cases hnr : s.nextRequest with
    | none => rfl
    | some r =>
      dsimp only
      rw [if_neg (not_le.mpr hlt)]

/-- Witness for C5 on a concrete two-step schedule. -/
theorem C5_token_bucket_bounds_witness :
    (0 ≤ (schedRun schedCfgB [SchedAction.loop 1, SchedAction.complete 0]
        (initState schedCfgB [okSpec])).availableRequestCapacity ∧
      (schedRun schedCfgB [SchedAction.loop 1, SchedAction.complete 0]
        (initState schedCfgB [okSpec])).availableRequestCapacity ≤
        schedCfgB.maxRequestsPerMinute) ∧
    (∀ s : SchedState, s.availableRequestCapacity < 1 →
      (dispatchIfCapacity s).availableRequestCapacity =
        s.availableRequestCapacity) :=
  C5_token_bucket_bounds schedCfgB [okSpec] [SchedAction.loop 1, SchedAction.complete 0]
    (by norm_num [schedCfgB])
    (by
      intro dt h
      simp only [List.mem_cons, List.not_mem_nil, or_false] at h
      rcases h with h | h
      · injection h with h
        rw [h]
        norm_num
      · exact SchedAction.noConfusion h)

/-- C6: when the staged slot is empty and the retry queue is non-empty, the
scheduler stages the head of the retry queue, touching neither the input
sequence nor num_tasks_started (first conjunct); and a fresh task is pulled
from the input only when the staged slot is empty and the retry queue is
empty (second conjunct: pulling is visible as a change of
num_tasks_started). -/
theorem C6_retry_priority (cfg : SchedConfig) :
    (∀ (s : SchedState) (r : APIRequest) (rest : List APIRequest),
      s.nextRequest = none → s.queueOfRequestsToRetry = r :: rest →
      (getNextRequest cfg s).nextRequest = some r ∧
        (getNextRequest cfg s).queueOfRequestsToRetry = rest ∧
        (getNextRequest cfg s).inputRemaining = s.inputRemaining ∧
        (getNextRequest cfg s).tracker.numTasksStarted =
          s.tracker.numTasksStarted) ∧
    (∀ s : SchedState,
      (getNextRequest cfg s).tracker.numTasksStarted ≠ s.tracker.numTasksStarted →
      s.nextRequest = none ∧ s.queueOfRequestsToRetry = []) := by
  constructor
  · intro s r rest hnr hq
    have hred : getNextRequest cfg s =
        { s with nextRequest := some r, queueOfRequestsToRetry := rest } := by
      unfold getNextRequest
      rw [hnr, hq]
    rw [hred]
    exact ⟨rfl, rfl, rfl, rfl⟩
  · intro s hne
    cases hnr : s.nextRequest with
    | some r =>
      exfalso
      apply hne
      have hred : getNextRequest cfg s = s := by
        unfold getNextRequest
        rw [hnr]
      rw [hred]
    | none =>
      cases hq : s.queueOfRequestsToRetry with
      | cons r rest =>
        exfalso
        apply hne
        have hred : getNextRequest cfg s =
            { s with nextRequest := some r, queueOfRequestsToRetry := rest } := by
          unfold getNextRequest
          rw [hnr, hq]
        rw [hred]
      | nil => exact ⟨rfl, rfl⟩

/-- Witness for C6: with a staged slot empty, one queued retry and one fresh
input available, the retry is staged and the input is untouched. -/
theorem C6_retry_priority_witness :
    (getNextRequest schedCfgA
        ⟨[⟨5, failSpec, 1, [0]⟩], none, [failSpec], true, 60, {}, [], 6, false,
          [], []⟩).nextRequest = some ⟨5, failSpec, 1, [0]⟩ ∧
      (getNextRequest schedCfgA
        ⟨[⟨5, failSpec, 1, [0]⟩], none, [failSpec], true, 60, {}, [], 6, false,
          [], []⟩).queueOfRequestsToRetry = [] ∧
      (getNextRequest schedCfgA
        ⟨[⟨5, failSpec, 1, [0]⟩], none, [failSpec], true, 60, {}, [], 6, false,
          [], []⟩).inputRemaining =
        (⟨[⟨5, failSpec, 1, [0]⟩], none, [failSpec], true, 60, {}, [], 6, false,
          [], []⟩ : SchedState).inputRemaining ∧
      (getNextRequest schedCfgA
        ⟨[⟨5, failSpec, 1, [0]⟩], none, [failSpec], true, 60, {}, [], 6, false,
          [], []⟩).tracker.numTasksStarted =
        (⟨[⟨5, failSpec, 1, [0]⟩], none, [failSpec], true, 60, {}, [], 6, false,
          [], []⟩ : SchedState).tracker.numTasksStarted :=
  (C6_retry_priority schedCfgA).1 _ ⟨5, failSpec, 1, [0]⟩ [] rfl rfl

/-- C7: the main loop breaks exactly when the in-progress count reaches zero
at the exit check (second conjunct), and whenever the run has halted, the
input iterator is exhausted and the retry queue is empty as well, so the
single check realizes the three-part termination condition (first
conjunct). -/
theorem C7_loop_exit_condition (cfg : SchedConfig) (input : List (Nat → Outcome))
    (acts : List SchedAction) :
    ((schedRun cfg acts (initState cfg input)).halted = true →
      (schedRun cfg acts (initState cfg input)).tracker.numTasksInProgress = 0 ∧
        (schedRun cfg acts (initState cfg input)).inputRemaining = [] ∧
        (schedRun cfg acts (initState cfg input)).queueOfRequestsToRetry = []) ∧
    (∀ (dt : ℚ) (s : SchedState), s.halted = false →
      ((loopIter cfg dt s).halted = true ↔
        (loopIter cfg dt s).tracker.numTasksInProgress = 0)) := by
  constructor
  · intro hh
    exact (schedInv_schedRun cfg acts (schedInv_initState cfg input)).haltedDone hh
  · intro dt s hh
    unfold loopIter
    by_cases h0 : (dispatchIfCapacity (updateCapacity cfg dt
        (getNextRequest cfg s))).tracker.numTasksInProgress = 0
    · rw [if_pos h0]
      exact ⟨fun _ => h0, fun _ => rfl⟩
    · rw [if_neg h0]
      constructor
      · intro hha
        exfalso
        rw [dispatchIfCapacity_halted] at hha
        have hu : (updateCapacity cfg dt (getNextRequest cfg s)).halted =
            (getNextRequest cfg s).halted := rfl
        rw [hu, getNextRequest_halted, hh] at hha
        cases hha
      · intro hip
        exact absurd hip h0
  
/-- Witness for C7: running the loop once on an empty input halts with all
three conditions. -/
theorem C7_loop_exit_condition_witness :
    (schedRun schedCfgB [SchedAction.loop 0]
        (initState schedCfgB [])).tracker.numTasksInProgress = 0 ∧
      (schedRun schedCfgB [SchedAction.loop 0]
        (initState schedCfgB [])).inputRemaining = [] ∧
      (schedRun schedCfgB [SchedAction.loop 0]
        (initState schedCfgB [])).queueOfRequestsToRetry = [] :=
  (C7_loop_exit_condition schedCfgB [] [SchedAction.loop 0]).1
    (by
      norm_num [schedRun, schedStep, loopIter, getNextRequest, updateCapacity,
        dispatchIfCapacity, initState, schedCfgB, optCountI])

/-- C10: when process_api_requests returns (the run has halted), no task is
in progress and every started task has been counted exactly once as
succeeded or failed; succeeded and failed count exactly the terminal
transitions. -/
theorem C10_final_counters (cfg : SchedConfig) (input : List (Nat → Outcome))
    (acts : List SchedAction)
    (hh : (schedRun cfg acts (initState cfg input)).halted = true) :
    (schedRun cfg acts (initState cfg input)).tracker.numTasksInProgress = 0 ∧
      (schedRun cfg acts (initState cfg input)).tracker.numTasksStarted =
        (schedRun cfg acts (initState cfg input)).tracker.numTasksSucceeded +
          (schedRun cfg acts (initState cfg input)).tracker.numTasksFailed ∧
      (schedRun cfg acts (initState cfg input)).tracker.numTasksSucceeded =
        ((schedRun cfg acts (initState cfg input)).finalizedSucceeded.length : Int) ∧
      (schedRun cfg acts (initState cfg input)).tracker.numTasksFailed =
        ((schedRun cfg acts (initState cfg input)).finalizedFailed.length : Int) := by
  have hinv := schedInv_schedRun cfg acts (schedInv_initState cfg input)
  have h0 := hinv.haltedDone hh
  refine ⟨h0.1, ?_, hinv.succeededEq, hinv.failedEq⟩
  have hst := hinv.startedEq
  omega

/-- Witness for C10: one succeeding task driven to completion and loop
exit. -/
theorem C10_final_counters_witness :
    (schedRun schedCfgB actsOk
        (initState schedCfgB [okSpec])).tracker.numTasksInProgress = 0 ∧
      (schedRun schedCfgB actsOk
        (initState schedCfgB [okSpec])).tracker.numTasksStarted =
        (schedRun schedCfgB actsOk
          (initState schedCfgB [okSpec])).tracker.numTasksSucceeded +
          (schedRun schedCfgB actsOk
            (initState schedCfgB [okSpec])).tracker.numTasksFailed ∧
      (schedRun schedCfgB actsOk
        (initState schedCfgB [okSpec])).tracker.numTasksSucceeded =
        ((schedRun schedCfgB actsOk
          (initState schedCfgB [okSpec])).finalizedSucceeded.length : Int) ∧
      (schedRun schedCfgB actsOk
        (initState schedCfgB [okSpec])).tracker.numTasksFailed =
        ((schedRun schedCfgB actsOk
          (initState schedCfgB [okSpec])).finalizedFailed.length : Int) :=
  C10_final_counters schedCfgB [okSpec] actsOk
    (by
      norm_num [schedRun, schedStep, actsOk, loopIter, getNextRequest,
        updateCapacity, dispatchIfCapacity, completeTask, initState, schedCfgB,
        okSpec, optCountI])
